import Mathlib

/-!
Shallow embedding of the hybrid retrieval-augmented-generation pipeline of the
`regolo-ai/tutorials` repository, covering the code referenced by the frozen
claims:

* `production-ready-RAG-on-open-models/semantic_chunker.py` (`semantic_chunk`)
* `production-ready-RAG-on-open-models/hybrid_store.py` (`lexical_search`)
* `production-ready-RAG-on-open-models/embedder.py` (`embed_with_gte_qwen2`)
* `production-ready-RAG-on-open-models/retriever.py` (`HybridRetriever.retrieve`)
* `production-ready-RAG-on-open-models/generator.py` (`rag_generate`)
* `production-ready-RAG-on-open-models/production_rag.py` (`cached_rag`, `batch_rag`)
* `clawdbot-knowledge-base/rag_pipeline.py` (`_batch_embed`, `hybrid_retrieve`, `rerank`)

Python strings are modelled as `List Char`, float scores as exact rationals
(`ℚ`), remote HTTP calls as explicit oracles of type `... → Except Err ...`,
and the Redis cache as an association list threaded through the functions.
-/

namespace RagSpec

/-! ## Python string primitives -/

/-- Whitespace characters removed by Python `str.strip()`. -/
def isPySpace (c : Char) : Bool :=
  c == ' ' || c == '\t' || c == '\n' || c == '\r' || c == '\x0b' || c == '\x0c'

/-- Python `s.strip()`: remove leading and trailing whitespace. -/
def pyStrip (s : List Char) : List Char :=
  ((s.dropWhile isPySpace).reverse.dropWhile isPySpace).reverse

/-- Python `text.split("\n\n")`: greedy left-to-right split on the two-newline
separator, keeping empty pieces (as Python `str.split` with an explicit
separator does). -/
def splitParas : List Char → List (List Char)
  | [] => [[]]
  | '\n' :: '\n' :: rest => [] :: splitParas rest
  | c :: rest =>
    match splitParas rest with
    | [] => [[c]]
    | p :: ps => (c :: p) :: ps

/-- Python `s[-n:]` for `n > 0`: the last `n` elements (all of `s` when
`n ≥ len(s)`). -/
def takeLast (n : Nat) (s : List α) : List α := s.drop (s.length - n)

/-- Python `s[-n:]` including the `n = 0` quirk: `s[-0:]` is `s[0:]`, the
WHOLE list, not the empty one. -/
def pyTailSlice (n : Nat) (s : List α) : List α := if n = 0 then s else takeLast n s

/-! ## Chunker (`semantic_chunker.py`, `semantic_chunk`)

The paragraph-accumulation loop of `semantic_chunk` (lines 32-50): greedily
extend `current_chunk` with `para + "\n\n"` while
`len(current_chunk) + len(para) < chunk_size`, otherwise flush the stripped
current chunk and restart from the paragraph; blank paragraphs are skipped;
the final non-empty chunk is flushed after the loop. -/

def chunkLoop (chunkSize : Nat) : List (List Char) → List Char → List (List Char)
  | [], current => if current.isEmpty then [] else [pyStrip current]
  | para :: rest, current =>
    if (pyStrip para).isEmpty then
      chunkLoop chunkSize rest current
    else if current.length + para.length < chunkSize then
      chunkLoop chunkSize rest (current ++ para ++ ['\n', '\n'])
    else
      (if current.isEmpty then [] else [pyStrip current]) ++
        chunkLoop chunkSize rest (para ++ ['\n', '\n'])

/-- The boundary-split chunks of `semantic_chunk` before the overlap pass
(the `chunks` list at line 50 of `semantic_chunker.py`). -/
def preChunks (text : List Char) (chunkSize : Nat) : List (List Char) :=
  chunkLoop chunkSize (splitParas text) []

/-- Overlap pass, lines 53-62 of `semantic_chunker.py`: each chunk except the
first is prefixed with `chunks[i-1][-overlap:] + "\n"` when `overlap > 0`.
`prev` is the previous PRE-overlap chunk. -/
def addOverlapGo (overlap : Nat) : List Char → List (List Char) → List (List Char)
  | _, [] => []
  | prev, c :: rest =>
    (if 0 < overlap then takeLast overlap prev ++ '\n' :: c else c) ::
      addOverlapGo overlap c rest

/-- Adds the overlap prefixes to the chunk list; the first chunk is unchanged. -/
def addOverlap (overlap : Nat) : List (List Char) → List (List Char)
  | [] => []
  | c :: rest => c :: addOverlapGo overlap c rest

/-- Model of `semantic_chunk(text, chunk_size, overlap)` from
`semantic_chunker.py`: the list of chunk contents (the per-chunk metadata
dict only records id, position and length and is not needed by the claims). -/
def semantic_chunk (text : List Char) (chunkSize overlap : Nat) : List (List Char) :=
  addOverlap overlap (preChunks text chunkSize)

/-! ## Lexical search (`hybrid_store.py`, `lexical_search`)

`lexical_search` tokenizes the query, asks `rank_bm25` for one float score per
indexed document, and then selects `np.argsort(bm25_scores)[-top_k:][::-1]`.
The BM25 scoring itself is external floating-point library code; it is
abstracted as the given score vector `bm25Scores` (one rational score per
document, in insertion order).  `np.argsort` sorts ascending; its tie order
with the default kind is implementation-defined, and we model the
deterministic stable variant (`kind='stable'`): a stable ascending sort of
the index list `0, 1, ..., n-1` by score, i.e. a sort by the lexicographic
key (score, index). -/

/-- Ascending lexicographic comparison of indices by (score, index); this is
exactly the order a stable ascending `argsort` realises. -/
def leIdx (qs : List ℚ) (i j : Nat) : Prop :=
  qs.getD i 0 < qs.getD j 0 ∨ (qs.getD i 0 = qs.getD j 0 ∧ i ≤ j)

instance (qs : List ℚ) : DecidableRel (leIdx qs) := fun i j => by
  unfold leIdx; infer_instance

/-- Model of `np.argsort(scores)` (ascending, stable tie-break). -/
def argsortQ (qs : List ℚ) : List Nat :=
  List.insertionSort (leIdx qs) (List.range qs.length)

/-- Model of `HybridStore.lexical_search` (lines 107-127 of
`hybrid_store.py`): `top_indices = np.argsort(bm25_scores)[-top_k:][::-1]`,
then `[self.documents[i] for i in top_indices]`. -/
def lexical_search (documents : List String) (bm25Scores : List ℚ) (top_k : Nat) :
    List String :=
  ((pyTailSlice top_k (argsortQ bm25Scores)).reverse).map (fun i => documents.getD i "")

/-! ## Embedding clients

`embedder.py`'s `embed_with_gte_qwen2` slices `texts` into batches of
`batch_size`, posts each batch to the remote embeddings endpoint, and raises
on the first non-2xx response (`response.raise_for_status()` re-raised at
lines 56-61).  `rag_pipeline.py`'s `_batch_embed` (lines 226-256) instead
catches a batch failure and extends the result with one `np.zeros(768)`
vector per text of the failed batch.  The remote call is modelled as an
oracle `api : List String → Except Err (List Vec)`. -/

/-- Error payload of a failed remote call. -/
abbrev Err := String

/-- A dense embedding vector. -/
abbrev Vec := List ℚ

/-- Fuel-indexed batch splitter; `fuel` bounds the recursion depth and is
instantiated with the list length. -/
def toBatchesAux (fuel batchSize : Nat) : List α → List (List α)
  | [] => []
  | x :: xs =>
    match fuel with
    | 0 => []
    | fuel' + 1 =>
      (x :: xs.take (batchSize - 1)) :: toBatchesAux fuel' batchSize (xs.drop (batchSize - 1))

/-- Python `for i in range(0, len(texts), batch_size): batch = texts[i:i+batch_size]`:
the list of consecutive batches of size `batchSize` (the last one may be
shorter). -/
def toBatches (batchSize : Nat) (texts : List α) : List (List α) :=
  toBatchesAux texts.length batchSize texts

/-- The sequential batch loop of `embed_with_gte_qwen2`: the first failing
batch raises, otherwise the per-batch embeddings are concatenated in order. -/
def embedGo (api : List String → Except Err (List Vec)) :
    List (List String) → Except Err (List Vec)
  | [] => .ok []
  | b :: rest =>
    match api b with
    | .error e => .error e
    | .ok vs =>
      match embedGo api rest with
      | .error e => .error e
      | .ok ws => .ok (vs ++ ws)

/-- Model of `embed_with_gte_qwen2(texts, model, batch_size)` from
`embedder.py`.  `hasKey` models the `REGOLO_API_KEY` environment check at
lines 34-38 (a missing key raises before any batch is sent). -/
def embed_with_gte_qwen2 (hasKey : Bool) (api : List String → Except Err (List Vec))
    (texts : List String) (batchSize : Nat) : Except Err (List Vec) :=
  if hasKey then embedGo api (toBatches batchSize texts)
  else .error "REGOLO_API_KEY not set"

/-- The `np.zeros(768, dtype=np.float32)` substitute vector of
`_batch_embed`. -/
def zeros768 : Vec := List.replicate 768 (0 : ℚ)

/-- Model of `KnowledgeBaseRAG._batch_embed(texts, batch_size)` from
`rag_pipeline.py` lines 226-256: each batch is posted; on success the returned
vectors are appended, on failure (the `except` at lines 251-254) one zero
vector per text of the batch is appended instead, and processing continues.
The token-count telemetry is observability glue and is not modelled. -/
def batch_embed (api : List String → Except Err (List Vec))
    (texts : List String) (batchSize : Nat) : List Vec :=
  ((toBatches batchSize texts).map (fun b =>
    match api b with
    | .ok vs => vs
    | .error _ => b.map (fun _ => zeros768))).flatten

/-! ## Clawdbot hybrid retrieval and rerank (`rag_pipeline.py`)

`hybrid_retrieve` computes a dense cosine-similarity score and a lexical
TF-IDF cosine score for every indexed chunk, fuses them as
`0.6 * dense + 0.4 * lexical`, and selects
`np.argsort(fused_scores)[-k:][::-1]`.  The similarity computations are
external floating-point library code (sklearn `cosine_similarity` on vectors
from the remote embedding model); they are abstracted as the given
per-chunk score vectors, and the float weights `0.6` / `0.4` are modelled as
the exact rationals `6/10` / `4/10`.  Results are `(chunk, metadata, score)`
triples. -/

/-- One element of the `(chunk_text, metadata, score)` candidate triples
returned by `hybrid_retrieve`; the metadata dict is abstracted to its
`source` string. -/
structure Candidate where
  content : String
  source : String
  score : ℚ
deriving DecidableEq, Repr

/-- The fusion formula `0.6 * dense_scores + 0.4 * lexical_scores`
(line 296 of `rag_pipeline.py`) on one chunk's pair of scores. -/
def fuseScore (dense lexical : ℚ) : ℚ := mkRat 6 10 * dense + mkRat 4 10 * lexical

/-- Model of `KnowledgeBaseRAG.hybrid_retrieve(query, k)` (lines 272-309):
weighted fusion of the per-chunk score vectors followed by top-`k` selection
with `np.argsort(fused)[-k:][::-1]` and a lookup of chunk text and metadata
at each selected index. -/
def hybrid_retrieve (chunks meta : List String) (denseScores lexicalScores : List ℚ)
    (k : Nat) : List Candidate :=
  let fused := List.zipWith fuseScore denseScores lexicalScores
  ((pyTailSlice k (argsortQ fused)).reverse).map
    (fun i => ⟨chunks.getD i "", meta.getD i "", fused.getD i 0⟩)

/-- Descending order on candidates by (fused) score; total and transitive.
Python `sorted(candidates, key=lambda x: x[2], reverse=True)` is the stable
sort under this relation. -/
def candGE (a b : Candidate) : Prop := b.score ≤ a.score

instance : DecidableRel candGE := fun a b => by unfold candGE; infer_instance

/-- Model of `KnowledgeBaseRAG.rerank(query, candidates, topn)` (lines
311-364).  The remote rerank endpoint is the oracle `api`, receiving the
query, the candidate texts, and the request's `top_n = min(topn, len(chunks))`,
and returning `(index, relevance_score)` pairs.  On success each returned
index inside range contributes the corresponding candidate with its score
replaced by the relevance score; on failure (the `except` at lines 361-364)
the fallback returns `sorted(candidates, key=lambda x: x[2], reverse=True)[:topn]`. -/
def rerank (api : String → List String → Nat → Except Err (List (Nat × ℚ)))
    (query : String) (candidates : List Candidate) (topn : Nat) : List Candidate :=
  if candidates.isEmpty then []
  else
    match api query (candidates.map (·.content)) (min topn candidates.length) with
    | .ok results =>
      results.filterMap (fun r =>
        match candidates.get? r.1 with
        | some c => some { c with score := r.2 }
        | none => none)
    | .error _ => (List.insertionSort candGE candidates).take topn

/-! ## Production retriever (`retriever.py`, `HybridRetriever.retrieve`)

`retrieve` unions the dense and lexical result lists with
`list(dict.fromkeys(dense_docs + lexical_docs))[:20]`, sends the (query, doc)
pairs to the cross-encoder, and returns the contents of the `top_k` pairs of
`sorted(zip(scores, all_docs), reverse=True, key=lambda x: x[0])`.  The two
store searches and the cross-encoder are modelled as inputs: the result
lists `dense_docs` / `lexical_docs`, and the scoring oracle `rerankApi`
returning one score per document.  There is no exception handler around the
cross-encoder call, so a scoring failure propagates (`Except.error`). -/

/-- Structural-recursion version of Python `dict.fromkeys` deduplication:
keep the first occurrence of every element, preserving order.  `seen` is the
set of already-emitted elements. -/
def dedupFirstAux [DecidableEq α] (seen : List α) : List α → List α
  | [] => []
  | x :: xs =>
    if x ∈ seen then dedupFirstAux seen xs
    else x :: dedupFirstAux (x :: seen) xs

/-- Python `list(dict.fromkeys(l))`: deduplicate keeping first occurrences. -/
def dedupFirst [DecidableEq α] (l : List α) : List α := dedupFirstAux [] l

/-- Descending order on `(score, doc)` pairs by score; `sorted(...,
reverse=True, key=lambda x: x[0])` is the stable sort under this relation. -/
def pairGE (a b : ℚ × String) : Prop := b.1 ≤ a.1

instance : DecidableRel pairGE := fun a b => by unfold pairGE; infer_instance

/-- The fused candidate list of `retrieve` (line 64 of `retriever.py`):
`list(dict.fromkeys(dense_docs + lexical_docs))[:20]`. -/
def fuseDocs (dense_docs lexical_docs : List String) : List String :=
  (dedupFirst (dense_docs ++ lexical_docs)).take 20

/-- Model of `HybridRetriever.retrieve(query, top_k, dense_k, lexical_k)`
(lines 32-82 of `retriever.py`) given the two stores' result lists and the
cross-encoder scoring oracle. -/
def retrieve (rerankApi : String → List String → Except Err (List ℚ)) (query : String)
    (dense_docs lexical_docs : List String) (top_k : Nat) : Except Err (List String) :=
  let all_docs := fuseDocs dense_docs lexical_docs
  if all_docs.isEmpty then .ok []
  else
    match rerankApi query all_docs with
    | .error e => .error e
    | .ok scores =>
      .ok ((((List.insertionSort pairGE (scores.zip all_docs))).take top_k).map (·.2))

/-! ## SHA-256 (`hashlib.sha256`, used for the cache key)

`production_rag.py` line 50 computes
`cache_key = f"rag:{hashlib.sha256(query.encode()).hexdigest()[:16]}"`.
`hashlib.sha256` is the standard SHA-256 function (FIPS 180-4); it is
embedded here executably over `Nat` with explicit reduction modulo `2^32`.
Bytes are natural numbers below 256; a message is a byte list. -/

/-- Right rotation of a 32-bit word. -/
def rotr32 (n x : Nat) : Nat := ((x >>> n) ||| (x <<< (32 - n))) % 4294967296

/-- SHA-256 `Ch(x,y,z) = (x AND y) XOR (NOT x AND z)` on 32-bit words. -/
def shaCh (x y z : Nat) : Nat := (x &&& y) ^^^ ((x ^^^ 4294967295) &&& z)

/-- SHA-256 `Maj(x,y,z)`. -/
def shaMaj (x y z : Nat) : Nat := (x &&& y) ^^^ (x &&& z) ^^^ (y &&& z)

/-- SHA-256 `Σ₀`. -/
def bigSigma0 (x : Nat) : Nat := rotr32 2 x ^^^ rotr32 13 x ^^^ rotr32 22 x

/-- SHA-256 `Σ₁`. -/
def bigSigma1 (x : Nat) : Nat := rotr32 6 x ^^^ rotr32 11 x ^^^ rotr32 25 x

/-- SHA-256 `σ₀`. -/
def smallSigma0 (x : Nat) : Nat := rotr32 7 x ^^^ rotr32 18 x ^^^ (x >>> 3)

/-- SHA-256 `σ₁`. -/
def smallSigma1 (x : Nat) : Nat := rotr32 17 x ^^^ rotr32 19 x ^^^ (x >>> 10)

/-- The 64 SHA-256 round constants (FIPS 180-4 section 4.2.2, written in
decimal). -/
def sha256K : List Nat :=
  [1116352408, 1899447441, 3049323471, 3921009573, 961987163,
   1508970993, 2453635748, 2870763221, 3624381080, 310598401,
   607225278, 1426881987, 1925078388, 2162078206, 2614888103,
   3248222580, 3835390401, 4022224774, 264347078, 604807628,
   770255983, 1249150122, 1555081692, 1996064986, 2554220882,
   2821834349, 2952996808, 3210313671, 3336571891, 3584528711,
   113926993, 338241895, 666307205, 773529912, 1294757372,
   1396182291, 1695183700, 1986661051, 2177026350, 2456956037,
   2730485921, 2820302411, 3259730800, 3345764771, 3516065817,
   3600352804, 4094571909, 275423344, 430227734, 506948616,
   659060556, 883997877, 958139571, 1322822218, 1537002063,
   1747873779, 1955562222, 2024104815, 2227730452, 2361852424,
   2428436474, 2756734187, 3204031479, 3329325298]

/-- Working state `(a,b,c,d,e,f,g,h)` of the SHA-256 compression function. -/
structure Hash8 where
  a : Nat
  b : Nat
  c : Nat
  d : Nat
  e : Nat
  f : Nat
  g : Nat
  h : Nat
deriving DecidableEq, Repr

/-- The initial SHA-256 hash value (FIPS 180-4 section 5.3.3, in decimal). -/
def sha256H0 : Hash8 :=
  ⟨1779033703, 3144134277, 1013904242, 2773480762,
   1359893119, 2600822924, 528734635, 1541459225⟩

/-- One SHA-256 round with round constant and schedule word `kw = (Kₜ, Wₜ)`. -/
def shaRound (st : Hash8) (kw : Nat × Nat) : Hash8 :=
  let t1 := (st.h + bigSigma1 st.e + shaCh st.e st.f st.g + kw.1 + kw.2) % 4294967296
  let t2 := (bigSigma0 st.a + shaMaj st.a st.b st.c) % 4294967296
  ⟨(t1 + t2) % 4294967296, st.a, st.b, st.c, (st.d + t1) % 4294967296, st.e, st.f, st.g⟩

/-- Big-endian packing of bytes into 32-bit words. -/
def bytesToWords : List Nat → List Nat
  | b0 :: b1 :: b2 :: b3 :: rest => (((b0 * 256 + b1) * 256 + b2) * 256 + b3) :: bytesToWords rest
  | _ => []

/-- Extends the 16 message-schedule words by `t` more words
(`Wₜ = σ₁(Wₜ₋₂) + Wₜ₋₇ + σ₀(Wₜ₋₁₅) + Wₜ₋₁₆ mod 2³²`). -/
def extendSchedule (t : Nat) (w : List Nat) : List Nat :=
  match t with
  | 0 => w
  | t' + 1 =>
    extendSchedule t' (w ++ [(smallSigma1 (w.getD (w.length - 2) 0) + w.getD (w.length - 7) 0 +
      smallSigma0 (w.getD (w.length - 15) 0) + w.getD (w.length - 16) 0) % 4294967296])

/-- SHA-256 compression of one 64-byte block into the running hash value. -/
def compressBlock (hs : Hash8) (block : List Nat) : Hash8 :=
  let w := extendSchedule 48 (bytesToWords block)
  let st := (sha256K.zip w).foldl shaRound hs
  ⟨(hs.a + st.a) % 4294967296, (hs.b + st.b) % 4294967296, (hs.c + st.c) % 4294967296,
   (hs.d + st.d) % 4294967296, (hs.e + st.e) % 4294967296, (hs.f + st.f) % 4294967296,
   (hs.g + st.g) % 4294967296, (hs.h + st.h) % 4294967296⟩

/-- Big-endian 8-byte encoding of the 64-bit message bit length. -/
def be64 (n : Nat) : List Nat :=
  [(n >>> 56) % 256, (n >>> 48) % 256, (n >>> 40) % 256, (n >>> 32) % 256,
   (n >>> 24) % 256, (n >>> 16) % 256, (n >>> 8) % 256, n % 256]

/-- SHA-256 padding: append `0x80`, zero bytes up to 56 mod 64, and the
64-bit big-endian bit length. -/
def sha256Pad (msg : List Nat) : List Nat :=
  msg ++ 128 :: List.replicate ((120 - ((msg.length + 1) % 64)) % 64) 0 ++ be64 (8 * msg.length)

/-- The eight 32-bit words of the SHA-256 digest of a byte message. -/
def sha256Words (msg : List Nat) : List Nat :=
  let final := (toBatches 64 (sha256Pad msg)).foldl compressBlock sha256H0
  [final.a, final.b, final.c, final.d, final.e, final.f, final.g, final.h]

/-- Lowercase hexadecimal digits. -/
def hexDigits : List Char := "0123456789abcdef".toList

/-- Eight-hex-digit rendering of a 32-bit word. -/
def toHex8 (n : Nat) : List Char :=
  [hexDigits.getD ((n >>> 28) % 16) '0', hexDigits.getD ((n >>> 24) % 16) '0',
   hexDigits.getD ((n >>> 20) % 16) '0', hexDigits.getD ((n >>> 16) % 16) '0',
   hexDigits.getD ((n >>> 12) % 16) '0', hexDigits.getD ((n >>> 8) % 16) '0',
   hexDigits.getD ((n >>> 4) % 16) '0', hexDigits.getD (n % 16) '0']

/-- Python `hashlib.sha256(bytes).hexdigest()`: the 64-character lowercase
hex digest. -/
def sha256Hex (msg : List Nat) : List Char := ((sha256Words msg).map toHex8).flatten

/-- Python `query.encode()`: the UTF-8 bytes of the query.  The embedding is
exact for ASCII strings (each character is one byte equal to its code
point); all concrete queries used below are ASCII. -/
def strBytes (s : String) : List Nat := s.toList.map Char.toNat

/-- Model of `cache_key = f"rag:{hashlib.sha256(query.encode()).hexdigest()[:16]}"`
(line 50 of `production_rag.py`): the key is computed from the RAW query
string, with no normalization. -/
def cacheKey (query : String) : String :=
  "rag:" ++ String.mk ((sha256Hex (strBytes query)).take 16)

/-! ## Answer cache (`production_rag.py`, `cached_rag`)

The Redis store is modelled as an association list from keys to stored
answers, newest binding first (`setex` overwrites by shadowing).  A `get`
within the entry's TTL returns the stored string; expiry is modelled as
absence of the binding, so the claims' "within the TTL" scenarios use a
state where the binding is still present.  The third result component
counts the generation calls (`rag_generate` invocations) the call issued. -/

/-- In-memory model of the Redis keyspace. -/
abbrev CacheState := List (String × String)

/-- Model of `rdb.get(key)` inside the TTL window. -/
def cacheGet (st : CacheState) (k : String) : Option String := st.lookup k

/-- Model of `rdb.setex(key, ttl, answer)`. -/
def cacheSet (st : CacheState) (k v : String) : CacheState := (k, v) :: st

/-- The cache-miss path of `cached_rag` (lines 58-66 of `production_rag.py`):
retrieve, generate (one generation call), store when caching is on, return. -/
def cached_rag_miss (gen : String → List String → String) (retr : String → List String)
    (useCache redisAvailable : Bool) (query : String) (st : CacheState) :
    String × CacheState × Nat :=
  let answer := gen query (retr query)
  (answer, if useCache && redisAvailable then cacheSet st (cacheKey query) answer else st, 1)

/-- Model of `cached_rag(query, retriever, ttl, use_cache)` (lines 31-66 of
`production_rag.py`).  Python's `if cached:` is a TRUTHINESS test, so a
cached empty string falls through to the miss path exactly like an absent
key. -/
def cached_rag (gen : String → List String → String) (retr : String → List String)
    (useCache redisAvailable : Bool) (query : String) (st : CacheState) :
    String × CacheState × Nat :=
  match (if useCache && redisAvailable then cacheGet st (cacheKey query) else none) with
  | some cached =>
    if cached = "" then cached_rag_miss gen retr useCache redisAvailable query st
    else (cached, st, 0)
  | none => cached_rag_miss gen retr useCache redisAvailable query st

/-! ## Generator (`generator.py`, `rag_generate`) -/

/-- The numbered context block (lines 44-47 of `generator.py`). -/
def buildContext (docs : List String) : String :=
  String.intercalate "\n\n" ((docs.enum).map (fun p => "[" ++ toString (p.1 + 1) ++ "] " ++ p.2))

/-- The strict prompt template (lines 50-59 of `generator.py`). -/
def buildPrompt (query : String) (docs : List String) : String :=
  "Use ONLY the following context to answer the question.\n" ++
  "If the answer is not in the context, say \"I don\x27t know based on the provided context.\"\n" ++
  "Do not make up information. Cite the reference number [X] when using information.\n\n" ++
  "Context:\n" ++ buildContext docs ++ "\n\nQuestion: " ++ query ++ "\n\nAnswer:"

/-- The canned empty-context answer (line 41 of `generator.py`). -/
def noContextAnswer : String := "No relevant context found to answer this question."

/-- Model of `rag_generate(query, retrieved_docs, ...)` from `generator.py`.
`api` is the remote chat-completion call on the built prompt; `hasKey`
models the `REGOLO_API_KEY` check.  The second result component counts the
generation-service calls issued. -/
def rag_generate (api : String → Except Err String) (hasKey : Bool) (query : String)
    (retrieved_docs : List String) : Except Err (String × Nat) :=
  if hasKey then
    if retrieved_docs.isEmpty then .ok (noContextAnswer, 0)
    else
      match api (buildPrompt query retrieved_docs) with
      | .ok answer => .ok (answer, 1)
      | .error e => .error e
  else .error "REGOLO_API_KEY not set"

/-! ## Batched answering (`production_rag.py`, `batch_rag`)

`batch_rag` creates one `process_one` task per query; each task does
`async with semaphore: return await cached_rag(q, retriever)` and
`asyncio.gather` collects the results in task order.  The asyncio
interleaving is embedded as a small-step scheduler over per-task statuses: a
task is `waiting` until the semaphore lets it through, `running` while it holds
one of the `max_concurrent` slots (this is the section in which its
generation call is in flight), and `done` with its answer once it finishes
and releases the slot.  `answerOf i` abstracts the task body's result (the
`cached_rag` answer for `queries[i]`).  A scheduler step picks any enabled
task; `SchedReach` is the set of states reachable from the initial
all-waiting state under arbitrary interleavings. -/

/-- Status of one `process_one` task. -/
inductive TStatus where
  | waiting : TStatus
  | running : TStatus
  | done : String → TStatus
deriving DecidableEq, Repr

/-- Whether a task currently holds a semaphore slot. -/
def isRunning : TStatus → Bool
  | .running => true
  | _ => false

/-- Number of tasks currently inside the semaphore (in-flight calls). -/
def runningCount (ts : List TStatus) : Nat := ts.countP isRunning

/-- A scheduler action: move task `i` through the semaphore, or let running
task `i` finish and release its slot. -/
inductive SchedAct where
  | acquire : Nat → SchedAct
  | complete : Nat → SchedAct

/-- One interleaving step of `batch_rag`'s task set.  `acquire i` fires only
when task `i` is waiting and a semaphore slot is free
(`runningCount < maxConcurrent`); `complete i` fires only when task `i` is
running, recording its answer. -/
def schedStep (maxConcurrent : Nat) (answerOf : Nat → String) (ts : List TStatus) :
    SchedAct → Option (List TStatus)
  | .acquire i =>
    match ts.get? i with
    | some .waiting =>
      if runningCount ts < maxConcurrent then some (ts.set i .running) else none
    | _ => none
  | .complete i =>
    match ts.get? i with
    | some .running => some (ts.set i (.done (answerOf i)))
    | _ => none

/-- States reachable from `init` under arbitrary enabled interleavings. -/
inductive SchedReach (maxC : Nat) (answerOf : Nat → String) (init : List TStatus) :
    List TStatus → Prop where
  | refl : SchedReach maxC answerOf init init
  | tail {st st' : List TStatus} {act : SchedAct} : SchedReach maxC answerOf init st →
      schedStep maxC answerOf st act = some st' → SchedReach maxC answerOf init st'

/-- The initial state of `batch_rag queries`: one waiting task per query, in
input order. -/
def batchInit (queries : List String) : List TStatus := queries.map (fun _ => .waiting)

/-- The fully-completed state: every task is done with its own answer, in
input order (`asyncio.gather` returns results in task order). -/
def batchDone (answerOf : Nat → String) (n : Nat) : List TStatus :=
  (List.range n).map (fun i => .done (answerOf i))

/-! ## Helper lemmas: chunker -/

theorem pyStrip_length_le (s : List Char) : (pyStrip s).length ≤ s.length := by
  unfold pyStrip
  calc ((s.dropWhile isPySpace).reverse.dropWhile isPySpace).reverse.length
      = ((s.dropWhile isPySpace).reverse.dropWhile isPySpace).length := List.length_reverse _
    _ ≤ (s.dropWhile isPySpace).reverse.length := (List.dropWhile_sublist _).length_le
    _ = (s.dropWhile isPySpace).length := List.length_reverse _
    _ ≤ s.length := (List.dropWhile_sublist _).length_le

theorem chunkLoop_length_le (chunkSize : Nat) (paras : List (List Char)) :
    ∀ current : List Char,
      (∀ p ∈ paras, (pyStrip p).isEmpty = false → p.length < chunkSize) →
      current.length ≤ chunkSize + 1 →
      ∀ c ∈ chunkLoop chunkSize paras current, c.length ≤ chunkSize + 1 := by
  induction paras with
  | nil =>
    intro current _ hcur c hc
    unfold chunkLoop at hc
    by_cases he : current.isEmpty <;> simp [he] at hc
    subst hc
    exact le_trans (pyStrip_length_le current) hcur
  | cons para rest ih =>
    intro current hp hcur c hc
    unfold chunkLoop at hc
    by_cases hblank : (pyStrip para).isEmpty
    · rw [if_pos hblank] at hc
      exact ih current (fun q hq => hp q (List.mem_cons_of_mem _ hq)) hcur c hc
    · rw [if_neg hblank] at hc
      by_cases hfit : current.length + para.length < chunkSize
      · rw [if_pos hfit] at hc
        refine ih _ (fun q hq => hp q (List.mem_cons_of_mem _ hq)) ?_ c hc
        simp only [List.length_append, List.length_cons, List.length_nil]
        omega
      · rw [if_neg hfit] at hc
        rcases List.mem_append.mp hc with hleft | hright
        · by_cases he : current.isEmpty <;> simp [he] at hleft
          subst hleft
          exact le_trans (pyStrip_length_le current) hcur
        · refine ih _ (fun q hq => hp q (List.mem_cons_of_mem _ hq)) ?_ c hright
          have hplt : para.length < chunkSize :=
            hp para (List.mem_cons_self _ _) (Bool.eq_false_iff.mpr hblank)
          simp only [List.length_append, List.length_cons, List.length_nil]
          omega

theorem takeLast_length_le (n : Nat) (s : List α) : (takeLast n s).length ≤ n := by
  unfold takeLast
  rw [List.length_drop]
  omega

theorem addOverlapGo_length_le (overlap bound : Nat) (rest : List (List Char)) :
    ∀ prev : List Char, (∀ c ∈ rest, c.length ≤ bound) →
      ∀ c ∈ addOverlapGo overlap prev rest, c.length ≤ bound + overlap + 1 := by
  induction rest with
  | nil => intro prev _ c hc; simp [addOverlapGo] at hc
  | cons x rest ih =>
    intro prev hb c hc
    unfold addOverlapGo at hc
    rcases List.mem_cons.mp hc with hhead | htail
    · subst hhead
      by_cases hov : 0 < overlap
      · rw [if_pos hov]
        have h1 := takeLast_length_le overlap prev
        have h2 := hb x (List.mem_cons_self _ _)
        simp only [List.length_append, List.length_cons]
        omega
      · rw [if_neg hov]
        have h2 := hb x (List.mem_cons_self _ _)
        omega
    · exact ih x (fun q hq => hb q (List.mem_cons_of_mem _ hq)) c htail

/-- C1 (amended). **Chunk size bound with the paragraph-size proviso**: when
every non-blank paragraph of the input is shorter than `chunk_size`, every
chunk produced by `semantic_chunk` has content length at most
`chunk_size + overlap + 2` (the `+2` is the boundary rounding left by the
`"\n\n"` paragraph joiner and the `"\n"` overlap joiner).  Without the
proviso the bound is false: a single paragraph longer than `chunk_size`
becomes one chunk verbatim (see the counterexample). -/
theorem semantic_chunk_length_bound (text : List Char) (chunkSize overlap : Nat)
    (hp : ∀ p ∈ splitParas text, (pyStrip p).isEmpty = false → p.length < chunkSize) :
    ∀ c ∈ semantic_chunk text chunkSize overlap, c.length ≤ chunkSize + overlap + 2 := by
  intro c hc
  unfold semantic_chunk at hc
  have hpre : ∀ c ∈ preChunks text chunkSize, c.length ≤ chunkSize + 1 :=
    chunkLoop_length_le chunkSize (splitParas text) [] hp (by simp)
  revert hc
  cases hpc : preChunks text chunkSize with
  | nil => intro hc; simp [addOverlap] at hc
  | cons x rest =>
    intro hc
    unfold addOverlap at hc
    rcases List.mem_cons.mp hc with hhead | htail
    · rw [hhead]
      have := hpre x (by rw [hpc]; exact List.mem_cons_self _ _)
      omega
    · have hb : ∀ d ∈ rest, d.length ≤ chunkSize + 1 := fun d hd =>
        hpre d (by rw [hpc]; exact List.mem_cons_of_mem _ hd)
      have := addOverlapGo_length_le overlap (chunkSize + 1) rest x hb c htail
      omega

/-- C1 (counterexample).  With `chunk_size = 5` and `overlap = 2`, a document
that is a single 100-character paragraph is returned as one chunk of length
100, exceeding `chunk_size + overlap = 7` by 93 — far beyond any "small
tolerance for boundary rounding".  The claim's universally quantified bound
is therefore false on the code. -/
theorem semantic_chunk_length_bound_cex :
    ∃ c ∈ semantic_chunk (List.replicate 100 'a') 5 2, 5 + 2 + 50 < c.length := by
  decide

/-! ## Helper lemmas: overlap indexing (C6) -/

theorem addOverlapGo_getD (overlap : Nat) (rest : List (List Char)) :
    ∀ (prev : List Char) (i : Nat), i < rest.length →
      (addOverlapGo overlap prev rest).getD i [] =
        (if 0 < overlap then
          takeLast overlap ((prev :: rest).getD i []) ++ '\n' :: rest.getD i []
        else rest.getD i []) := by
  induction rest with
  | nil => intro prev i hi; simp at hi
  | cons x rest ih =>
    intro prev i hi
    match i with
    | 0 => simp [addOverlapGo]
    | i + 1 =>
      have hi' : i < rest.length := by simpa using hi
      simpa [addOverlapGo] using ih x i hi'

theorem addOverlap_getD (overlap : Nat) (chunks : List (List Char)) (i : Nat)
    (h0 : 0 < i) (hi : i < chunks.length) :
    (addOverlap overlap chunks).getD i [] =
      (if 0 < overlap then
        takeLast overlap (chunks.getD (i - 1) []) ++ '\n' :: chunks.getD i []
      else chunks.getD i []) := by
  cases chunks with
  | nil => simp at hi
  | cons x rest =>
    match i with
    | 0 => omega
    | i + 1 =>
      have hi' : i < rest.length := by simpa using hi
      have := addOverlapGo_getD overlap rest x i hi'
      simpa [addOverlap] using this

theorem addOverlap_getD_zero (overlap : Nat) (chunks : List (List Char)) :
    (addOverlap overlap chunks).getD 0 [] = chunks.getD 0 [] := by
  cases chunks <;> simp [addOverlap]

theorem takeLast_length_of_le {n : Nat} {s : List α} (h : n ≤ s.length) :
    (takeLast n s).length = n := by
  unfold takeLast
  rw [List.length_drop]
  omega

/-- C6 (amended). **Overlap invariant with the long-enough-predecessor
proviso**: for `i > 0` and `overlap > 0`, when the previous pre-overlap
chunk has at least `overlap` characters, the first `overlap` characters of
chunk `i` are exactly the last `overlap` characters of chunk `i-1`'s
pre-overlap content; and the first chunk never receives a prepended overlap.
When the previous chunk is shorter than `overlap`, the code prepends the
whole previous chunk plus the `"\n"` joiner, so the first `overlap`
characters then spill into the joiner and the chunk's own text (see the
counterexample). -/
theorem semantic_chunk_overlap (text : List Char) (chunkSize overlap i : Nat)
    (h0 : 0 < i) (hi : i < (preChunks text chunkSize).length) (hov : 0 < overlap)
    (hlen : overlap ≤ ((preChunks text chunkSize).getD (i - 1) []).length) :
    ((semantic_chunk text chunkSize overlap).getD i []).take overlap =
      takeLast overlap ((preChunks text chunkSize).getD (i - 1) []) ∧
    (semantic_chunk text chunkSize overlap).getD 0 [] =
      (preChunks text chunkSize).getD 0 [] := by
  constructor
  · rw [semantic_chunk, addOverlap_getD overlap _ i h0 hi, if_pos hov]
    have hlen' : (takeLast overlap ((preChunks text chunkSize).getD (i - 1) [])).length
        = overlap := takeLast_length_of_le hlen
    rw [List.take_append_of_le_length (le_of_eq hlen'.symm),
      List.take_of_length_le (le_of_eq hlen')]
  · exact addOverlap_getD_zero overlap _

/-- C6 (witness).  `"aa\n\nbb\n\ncc"` with `chunk_size = 5`, `overlap = 2`
splits into pre-overlap chunks `["aa", "bb", "cc"]`; chunk 1 is `"aa\nbb"`
and its first two characters equal the last two of chunk 0. -/
theorem semantic_chunk_overlap_witness :
    (0 < 1 ∧ 1 < (preChunks ("aa\n\nbb\n\ncc".toList) 5).length ∧ 0 < 2 ∧
      2 ≤ ((preChunks ("aa\n\nbb\n\ncc".toList) 5).getD 0 []).length) ∧
    (((semantic_chunk ("aa\n\nbb\n\ncc".toList) 5 2).getD 1 []).take 2 =
      takeLast 2 ((preChunks ("aa\n\nbb\n\ncc".toList) 5).getD 0 []) ∧
    (semantic_chunk ("aa\n\nbb\n\ncc".toList) 5 2).getD 0 [] =
      (preChunks ("aa\n\nbb\n\ncc".toList) 5).getD 0 []) :=
  ⟨⟨by decide, by decide, by decide, by decide⟩,
    semantic_chunk_overlap ("aa\n\nbb\n\ncc".toList) 5 2 1
      (by decide) (by decide) (by decide) (by decide)⟩

/-- C6 (counterexample).  With `chunk_size = 5`, `overlap = 10` the text
`"ab\n\ncdefgh"` yields pre-overlap chunks `["ab", "cdefgh"]`; chunk 1 is
`"ab\ncdefgh"`, whose first 10 characters are the whole 9-character string,
not the last-10-characters slice `"ab"` of its predecessor.  The claim as
stated (for every chunk sequence and every `i > 0`) is therefore false. -/
theorem semantic_chunk_overlap_cex :
    ¬ (((semantic_chunk ("ab\n\ncdefgh".toList) 5 10).getD 1 []).take 10 =
      takeLast 10 ((preChunks ("ab\n\ncdefgh".toList) 5).getD 0 [])) := by
  decide

/-- C1 (witness).  `"aa\n\nbb\n\ncc"` with `chunk_size = 5`, `overlap = 2`:
every paragraph is shorter than 5, and every produced chunk is at most
`5 + 2 + 2 = 9` characters long. -/
theorem semantic_chunk_length_bound_witness :
    (∀ p ∈ splitParas ("aa\n\nbb\n\ncc".toList),
      (pyStrip p).isEmpty = false → p.length < 5) ∧
    (∀ c ∈ semantic_chunk ("aa\n\nbb\n\ncc".toList) 5 2, c.length ≤ 5 + 2 + 2) :=
  ⟨by decide, semantic_chunk_length_bound ("aa\n\nbb\n\ncc".toList) 5 2 (by decide)⟩

/-! ## Helper lemmas: argsort and lexical top-k (C2) -/

instance (qs : List ℚ) : IsTotal Nat (leIdx qs) where
  total i j := by
    unfold leIdx
    rcases lt_trichotomy (qs.getD i 0) (qs.getD j 0) with h | h | h
    · exact Or.inl (Or.inl h)
    · rcases Nat.le_total i j with hij | hij
      · exact Or.inl (Or.inr ⟨h, hij⟩)
      · exact Or.inr (Or.inr ⟨h.symm, hij⟩)
    · exact Or.inr (Or.inl h)

instance (qs : List ℚ) : IsTrans Nat (leIdx qs) where
  trans i j k hij hjk := by
    unfold leIdx at *
    rcases hij with h1 | ⟨he1, hle1⟩ <;> rcases hjk with h2 | ⟨he2, hle2⟩
    · exact Or.inl (h1.trans h2)
    · exact Or.inl (by rw [← he2]; exact h1)
    · exact Or.inl (by rw [he1]; exact h2)
    · exact Or.inr ⟨he1.trans he2, hle1.trans hle2⟩

theorem argsortQ_perm (qs : List ℚ) : (argsortQ qs).Perm (List.range qs.length) :=
  List.perm_insertionSort _ _

theorem argsortQ_pairwise (qs : List ℚ) :
    (argsortQ qs).Pairwise (fun i j => qs.getD i 0 < qs.getD j 0 ∨
      (qs.getD i 0 = qs.getD j 0 ∧ i < j)) := by
  have hs : (argsortQ qs).Pairwise (leIdx qs) := List.sorted_insertionSort _ _
  have hnd : (argsortQ qs).Pairwise (fun i j => i ≠ j) :=
    (argsortQ_perm qs).nodup_iff.mpr (List.nodup_range _)
  refine (hs.and hnd).imp ?_
  rintro i j ⟨hle, hne⟩
  rcases hle with hlt | ⟨heq, hij⟩
  · exact Or.inl hlt
  · exact Or.inr ⟨heq, lt_of_le_of_ne hij hne⟩

theorem takeLast_reverse (k : Nat) (l : List α) :
    (takeLast k l).reverse = l.reverse.take k := by
  have h := List.reverse_take (n := k) (l := l.reverse)
  simp only [List.length_reverse, List.reverse_reverse] at h
  unfold takeLast
  rw [← h, List.reverse_reverse]

/-- C2 (amended). **Exact top-k with the REVERSED deterministic tie-break,
and the `top_k = 0` slice quirk**: for every `k`, `lexical_search` returns
the documents at the first `k` positions — ALL positions when `k = 0`,
because Python's `[-0:]` slice is the whole array — of the unique index
permutation ordered by descending score, equal scores resolved with the
LATER-inserted chunk first.  (`np.argsort` sorts ascending — stable
tie-break puts the earlier index first — and the code then takes the last
`k` entries and reverses them, which flips equal-score runs.)  The claim's
"earlier-inserted chunk first" direction, and its "exact top-k" reading at
`k = 0`, are refuted by the counterexample. -/
theorem lexical_search_topk (documents : List String) (scores : List ℚ) (k : Nat)
    (hlen : scores.length = documents.length) :
    ∃ perm : List Nat, perm.Perm (List.range documents.length) ∧
      perm.Pairwise (fun i j => scores.getD j 0 < scores.getD i 0 ∨
        (scores.getD i 0 = scores.getD j 0 ∧ j < i)) ∧
      lexical_search documents scores k =
        ((perm.take (if k = 0 then documents.length else k)).map
          (fun i => documents.getD i "")) := by
  have hperm : ((argsortQ scores).reverse).Perm (List.range documents.length) := by
    rw [← hlen]
    exact (argsortQ scores).reverse_perm.trans (argsortQ_perm scores)
  refine ⟨(argsortQ scores).reverse, hperm, ?_, ?_⟩
  · rw [List.pairwise_reverse]
    refine (argsortQ_pairwise scores).imp ?_
    rintro i j (hlt | ⟨heq, hij⟩)
    · exact Or.inl hlt
    · exact Or.inr ⟨heq.symm, hij⟩
  · unfold lexical_search pyTailSlice
    by_cases hk : k = 0
    · rw [if_pos hk, if_pos hk]
      have hlen' : ((argsortQ scores).reverse).length = documents.length := by
        rw [hperm.length_eq, List.length_range]
      rw [List.take_of_length_le (le_of_eq hlen')]
    · rw [if_neg hk, if_neg hk, takeLast_reverse]

/-- C2 (witness).  Two documents with distinct scores `[2, 1]`: the theorem
instantiates with the permutation `[0, 1]` and `lexical_search` returns both
documents in descending score order. -/
theorem lexical_search_topk_witness :
    ([(2 : ℚ), 1].length = (["doc0", "doc1"] : List String).length) ∧
    (∃ perm : List Nat, perm.Perm (List.range (["doc0", "doc1"] : List String).length) ∧
      perm.Pairwise (fun i j => [(2 : ℚ), 1].getD j 0 < [(2 : ℚ), 1].getD i 0 ∨
        ([(2 : ℚ), 1].getD i 0 = [(2 : ℚ), 1].getD j 0 ∧ j < i)) ∧
      lexical_search ["doc0", "doc1"] [(2 : ℚ), 1] 2 =
        ((perm.take (if 2 = 0 then (["doc0", "doc1"] : List String).length else 2)).map
          (fun i => (["doc0", "doc1"] : List String).getD i ""))) :=
  ⟨rfl, lexical_search_topk ["doc0", "doc1"] [(2 : ℚ), 1] 2 rfl⟩

/-- C2 (counterexample).  Two chunks with EQUAL lexical scores and `k = 1`:
the code (`np.argsort(scores)[-1:][::-1]` under the stable ascending model)
returns chunk 1, the LATER-inserted chunk — not chunk 0 as the claim's
"earlier-inserted chunk first" tie-break predicts.  And with `k = 0` the
code returns BOTH chunks (Python's `[-0:]` slice is the whole array), not
the exact top-0 (empty) list. -/
theorem lexical_search_tie_cex :
    (lexical_search ["chunk0", "chunk1"] [(1 : ℚ), 1] 1 = ["chunk1"] ∧
      lexical_search ["chunk0", "chunk1"] [(1 : ℚ), 1] 1 ≠ ["chunk0"]) ∧
    (lexical_search ["chunk0", "chunk1"] [(1 : ℚ), 1] 0 = ["chunk1", "chunk0"] ∧
      lexical_search ["chunk0", "chunk1"] [(1 : ℚ), 1] 0 ≠ []) := by
  exact ⟨⟨by decide, by decide⟩, ⟨by decide, by decide⟩⟩

/-! ## Helper lemmas: embedding batch loop (C3) -/

theorem embedGo_error (api : List String → Except Err (List Vec))
    (batches : List (List String)) (b : List String) (e : Err)
    (hb : b ∈ batches) (hfail : api b = .error e) :
    ∃ e', embedGo api batches = .error e' := by
  induction batches with
  | nil => simp at hb
  | cons x rest ih =>
    rcases List.mem_cons.mp hb with hhead | htail
    · refine ⟨e, ?_⟩
      rw [← hhead]
      simp [embedGo, hfail]
    · unfold embedGo
      cases hx : api x with
      | error e' => exact ⟨e', rfl⟩
      | ok vs =>
        obtain ⟨e', he'⟩ := ih htail
        rw [he']
        exact ⟨e', rfl⟩

theorem embedGo_ok (api : List String → Except Err (List Vec)) :
    ∀ (batches : List (List String)) (vs : List Vec),
      embedGo api batches = .ok vs →
      (∀ b ∈ batches, ∃ us, api b = .ok us) ∧
      vs = (batches.map (fun b => (api b).toOption.getD [])).flatten := by
  intro batches
  induction batches with
  | nil => intro vs h; simp [embedGo] at h; simp [← h]
  | cons x rest ih =>
    intro vs h
    unfold embedGo at h
    cases hx : api x with
    | error e => rw [hx] at h; exact absurd h (by simp)
    | ok us =>
      rw [hx] at h
      cases hrest : embedGo api rest with
      | error e => rw [hrest] at h; exact absurd h (by simp)
      | ok ws =>
        rw [hrest] at h
        obtain ⟨hall, hflat⟩ := ih ws hrest
        refine ⟨?_, ?_⟩
        · intro b hb
          rcases List.mem_cons.mp hb with hhead | htail
          · exact ⟨us, hhead ▸ hx⟩
          · exact hall b htail
        · have : vs = us ++ ws := by
            cases h; rfl
          simp [this, hflat, hx, Except.toOption]

/-- C3 (amended). **Fail-fast embedding in the production embedder; zero-vector
substitution in the clawdbot embedder**.  For `embed_with_gte_qwen2`: if any
batch request fails, the whole operation fails with an error (the first
conjunct), and whenever it succeeds, every batch succeeded and the result is
exactly the concatenation of the per-batch embeddings — never substituted
vectors (the second conjunct).  The clawdbot `_batch_embed`, by contrast,
silently substitutes zero vectors (see the counterexample). -/
theorem embed_with_gte_qwen2_failfast (api : List String → Except Err (List Vec))
    (texts : List String) (batchSize : Nat) :
    ((∃ b ∈ toBatches batchSize texts, ∃ e, api b = .error e) →
      ∃ e', embed_with_gte_qwen2 true api texts batchSize = .error e') ∧
    (∀ vs, embed_with_gte_qwen2 true api texts batchSize = .ok vs →
      (∀ b ∈ toBatches batchSize texts, ∃ us, api b = .ok us) ∧
      vs = ((toBatches batchSize texts).map (fun b => (api b).toOption.getD [])).flatten) := by
  constructor
  · rintro ⟨b, hb, e, he⟩
    exact embedGo_error api (toBatches batchSize texts) b e hb he
  · intro vs h
    exact embedGo_ok api (toBatches batchSize texts) vs h

/-- C3 (witness).  With batch size 1 and an oracle that fails on the batch
`["bad"]`, embedding `["good", "bad"]` fails as a whole. -/
theorem embed_with_gte_qwen2_failfast_witness :
    (∃ b ∈ toBatches 1 ["good", "bad"], ∃ e,
      (fun b => if b = ["bad"] then (Except.error "boom" : Except Err (List Vec))
        else .ok [[1]]) b = .error e) ∧
    (∃ e', embed_with_gte_qwen2 true
      (fun b => if b = ["bad"] then .error "boom" else .ok [[1]])
      ["good", "bad"] 1 = .error e') :=
  ⟨⟨["bad"], by decide, "boom", rfl⟩,
    (embed_with_gte_qwen2_failfast
      (fun b => if b = ["bad"] then .error "boom" else .ok [[1]]) ["good", "bad"] 1).1
      ⟨["bad"], by decide, "boom", rfl⟩⟩

/-- C3 (counterexample).  The clawdbot `_batch_embed` does NOT fail as a
whole when a batch request fails: with an oracle that fails on every batch,
embedding one text returns normally and its result contains the 768-zero
substitute vector in place of the failed batch's embedding — exactly the
silent substitution the claim rules out. -/
theorem batch_embed_zero_substitute_cex :
    batch_embed (fun _ => .error "boom") ["some text"] 50 = [zeros768] := by
  rfl

/-! ## Helper lemmas: clawdbot rerank fallback (C4) -/

instance : IsTotal Candidate candGE where
  total a b := by unfold candGE; exact le_total b.score a.score

instance : IsTrans Candidate candGE where
  trans a b c hab hbc := by unfold candGE at *; exact le_trans hbc hab

/-- C4 (amended). **Degraded rerank in the clawdbot pipeline, ordered by the
FUSED WEIGHTED score**: if the external rerank call fails, `rerank` still
returns `topn` results taken from the candidate set, ordered descending by
the candidates' carried score — which is `hybrid_retrieve`'s fused weighted
score `0.6·dense + 0.4·lexical`, not "the better of the two raw scores"
(see the counterexample).  The production `HybridRetriever.retrieve` has no
such handler at all: there a rerank failure propagates and aborts the
query. -/
theorem rerank_fallback (api : String → List String → Nat → Except Err (List (Nat × ℚ)))
    (query : String) (candidates : List Candidate) (topn : Nat) (e : Err)
    (hfail : api query (candidates.map (·.content)) (min topn candidates.length) =
      .error e) :
    ∃ perm : List Candidate, perm.Perm candidates ∧ perm.Pairwise candGE ∧
      rerank api query candidates topn = perm.take topn ∧
      (rerank api query candidates topn).length = min topn candidates.length := by
  by_cases hemp : candidates.isEmpty
  · have hnil : candidates = [] := List.isEmpty_iff.mp hemp
    subst hnil
    exact ⟨[], by simp, by simp, by simp [rerank], by simp [rerank]⟩
  · refine ⟨List.insertionSort candGE candidates, List.perm_insertionSort _ _,
      List.sorted_insertionSort _ _, ?_, ?_⟩
    · unfold rerank
      rw [if_neg hemp, hfail]
    · unfold rerank
      rw [if_neg hemp, hfail]
      simp [List.length_take]

/-- C4 (witness).  Two candidates and a failing rerank oracle: the query
still yields `topn = 1` result, the higher-fused-score candidate. -/
theorem rerank_fallback_witness :
    ((fun (_ : String) (_ : List String) (_ : Nat) =>
        (Except.error "down" : Except Err (List (Nat × ℚ)))) "q"
      (([⟨"A", "srcA", 1⟩, ⟨"B", "srcB", 2⟩] : List Candidate).map (·.content))
      (min 1 ([⟨"A", "srcA", 1⟩, ⟨"B", "srcB", 2⟩] : List Candidate).length) =
      .error "down") ∧
    (∃ perm : List Candidate,
      perm.Perm ([⟨"A", "srcA", 1⟩, ⟨"B", "srcB", 2⟩] : List Candidate) ∧
      perm.Pairwise candGE ∧
      rerank (fun _ _ _ => .error "down") "q"
        ([⟨"A", "srcA", 1⟩, ⟨"B", "srcB", 2⟩] : List Candidate) 1 = perm.take 1 ∧
      (rerank (fun _ _ _ => .error "down") "q"
        ([⟨"A", "srcA", 1⟩, ⟨"B", "srcB", 2⟩] : List Candidate) 1).length =
        min 1 ([⟨"A", "srcA", 1⟩, ⟨"B", "srcB", 2⟩] : List Candidate).length) :=
  ⟨rfl, rerank_fallback (fun _ _ _ => .error "down") "q"
    [⟨"A", "srcA", 1⟩, ⟨"B", "srcB", 2⟩] 1 "down" rfl⟩

/-- C4 (counterexample).  Chunk "A" has raw scores (dense 1, lexical 0) and
chunk "B" has (dense 0.7, lexical 0.7).  By "the better of the two raw
scores" A (max 1) would rank before B (max 0.7); but the code's fallback
orders by the fused weighted score, where B (0.7) beats A (0.6), so after a
rerank failure the pipeline returns B before A.  The claim's fallback
ordering is therefore false on the code. -/
theorem rerank_fallback_cex :
    (rerank (fun _ _ _ => .error "down") "q"
      (hybrid_retrieve ["A", "B"] ["srcA", "srcB"]
        [1, mkRat 7 10] [0, mkRat 7 10] 2) 2).map (·.content) = ["B", "A"] ∧
    (["B", "A"] : List String) ≠ ["A", "B"] := by
  have h1 : fuseScore 1 0 = mkRat 3 5 := by
    unfold fuseScore
    rw [Rat.mkRat_eq_div, Rat.mkRat_eq_div, Rat.mkRat_eq_div]
    norm_num
  have h2 : fuseScore (mkRat 7 10) (mkRat 7 10) = mkRat 7 10 := by
    unfold fuseScore
    rw [Rat.mkRat_eq_div, Rat.mkRat_eq_div, Rat.mkRat_eq_div]
    norm_num
  have hr : hybrid_retrieve ["A", "B"] ["srcA", "srcB"]
      [1, mkRat 7 10] [0, mkRat 7 10] 2 =
      [⟨"B", "srcB", mkRat 7 10⟩, ⟨"A", "srcA", mkRat 3 5⟩] := by
    unfold hybrid_retrieve
    simp only [List.zipWith_cons_cons, List.zipWith_nil_right, h1, h2]
    decide
  rw [hr]
  exact ⟨by decide, by decide⟩

/-! ## Helper lemmas: dedup and stable descending sort (C7) -/

theorem mem_of_mem_dedupFirstAux [DecidableEq α] {l : List α} :
    ∀ {seen : List α} {x : α}, x ∈ dedupFirstAux seen l → x ∈ l := by
  induction l with
  | nil => intro seen x hx; simp [dedupFirstAux] at hx
  | cons y ys ih =>
    intro seen x hx
    unfold dedupFirstAux at hx
    by_cases hy : y ∈ seen
    · rw [if_pos hy] at hx
      exact List.mem_cons_of_mem _ (ih hx)
    · rw [if_neg hy] at hx
      rcases List.mem_cons.mp hx with hhead | htail
      · exact hhead ▸ List.mem_cons_self _ _
      · exact List.mem_cons_of_mem _ (ih htail)

theorem not_mem_seen_of_mem_dedupFirstAux [DecidableEq α] {l : List α} :
    ∀ {seen : List α} {x : α}, x ∈ dedupFirstAux seen l → x ∉ seen := by
  induction l with
  | nil => intro seen x hx; simp [dedupFirstAux] at hx
  | cons y ys ih =>
    intro seen x hx
    unfold dedupFirstAux at hx
    by_cases hy : y ∈ seen
    · rw [if_pos hy] at hx
      exact ih hx
    · rw [if_neg hy] at hx
      rcases List.mem_cons.mp hx with hhead | htail
      · exact hhead ▸ hy
      · intro hxseen
        exact ih htail (List.mem_cons_of_mem _ hxseen)

theorem dedupFirstAux_nodup [DecidableEq α] (l : List α) :
    ∀ seen : List α, (dedupFirstAux seen l).Nodup := by
  induction l with
  | nil => intro seen; simp [dedupFirstAux]
  | cons y ys ih =>
    intro seen
    unfold dedupFirstAux
    by_cases hy : y ∈ seen
    · rw [if_pos hy]; exact ih seen
    · rw [if_neg hy]
      refine List.nodup_cons.mpr ⟨?_, ih (y :: seen)⟩
      intro hmem
      exact not_mem_seen_of_mem_dedupFirstAux hmem (List.mem_cons_self _ _)

theorem mem_dedupFirstAux_of_mem [DecidableEq α] {l : List α} :
    ∀ {seen : List α} {x : α}, x ∈ l → x ∉ seen → x ∈ dedupFirstAux seen l := by
  induction l with
  | nil => intro seen x hx; simp at hx
  | cons y ys ih =>
    intro seen x hx hns
    unfold dedupFirstAux
    by_cases hy : y ∈ seen
    · rw [if_pos hy]
      rcases List.mem_cons.mp hx with hhead | htail
      · exact absurd (hhead ▸ hy) hns
      · exact ih htail hns
    · rw [if_neg hy]
      by_cases hxy : x = y
      · exact hxy ▸ List.mem_cons_self _ _
      · rcases List.mem_cons.mp hx with hhead | htail
        · exact absurd hhead hxy
        · refine List.mem_cons_of_mem _ (ih htail ?_)
          simp only [List.mem_cons, not_or]
          exact ⟨hxy, hns⟩

instance : IsTotal (ℚ × String) pairGE where
  total a b := by unfold pairGE; exact le_total b.1 a.1

instance : IsTrans (ℚ × String) pairGE where
  trans a b c hab hbc := by unfold pairGE at *; exact le_trans hbc hab

theorem filter_orderedInsert_fst (a : ℚ × String) (l : List (ℚ × String)) (s : ℚ) :
    (List.orderedInsert pairGE a l).filter (fun x => decide (x.1 = s)) =
      if a.1 = s then a :: l.filter (fun x => decide (x.1 = s))
      else l.filter (fun x => decide (x.1 = s)) := by
  induction l with
  | nil => by_cases h : a.1 = s <;> simp [List.orderedInsert, List.filter_cons, h]
  | cons b l ih =>
    unfold List.orderedInsert
    by_cases hr : pairGE a b
    · rw [if_pos hr]
      by_cases h : a.1 = s <;> simp [List.filter_cons, h]
    · rw [if_neg hr]
      have hgt : a.1 < b.1 := lt_of_not_le hr
      by_cases hb : b.1 = s
      · have ha : a.1 ≠ s := by rw [← hb]; exact ne_of_lt hgt
        simp [List.filter_cons, hb, ha, ih]
      · by_cases ha : a.1 = s <;> simp [List.filter_cons, hb, ha, ih]

theorem filter_insertionSort_fst (l : List (ℚ × String)) (s : ℚ) :
    (List.insertionSort pairGE l).filter (fun x => decide (x.1 = s)) =
      l.filter (fun x => decide (x.1 = s)) := by
  induction l with
  | nil => rfl
  | cons a l ih =>
    rw [List.insertionSort, filter_orderedInsert_fst, ih, List.filter_cons]
    by_cases h : a.1 = s <;> simp [h]

/-- C7 (claim). **Fusion, dedup, cap and stable rerank ordering of the
production retriever**: the rerank candidate list `fuseDocs` is the union of
the dense and lexical result lists deduplicated by chunk identity keeping
first occurrences (no duplicates; every candidate comes from one of the two
lists; when the deduplicated union fits the cap, every dense or lexical
result is a candidate), capped at 20; and on a successful rerank call,
`retrieve` returns the contents of the first `top_k` pairs of a permutation
of the scored candidates that is sorted descending by rerank score and is
STABLE: every equal-score band keeps its original fusion order (the filter
equation). -/
theorem retrieve_spec (rerankApi : String → List String → Except Err (List ℚ))
    (query : String) (dense_docs lexical_docs : List String) (top_k : Nat)
    (scores : List ℚ)
    (hok : rerankApi query (fuseDocs dense_docs lexical_docs) = .ok scores) :
    (fuseDocs dense_docs lexical_docs).Nodup ∧
    (∀ d ∈ fuseDocs dense_docs lexical_docs, d ∈ dense_docs ∨ d ∈ lexical_docs) ∧
    (fuseDocs dense_docs lexical_docs).length ≤ 20 ∧
    ((dedupFirst (dense_docs ++ lexical_docs)).length ≤ 20 →
      ∀ d, d ∈ dense_docs ∨ d ∈ lexical_docs → d ∈ fuseDocs dense_docs lexical_docs) ∧
    ∃ ranked : List (ℚ × String),
      ranked.Perm (scores.zip (fuseDocs dense_docs lexical_docs)) ∧
      ranked.Pairwise pairGE ∧
      (∀ s : ℚ, ranked.filter (fun x => decide (x.1 = s)) =
        (scores.zip (fuseDocs dense_docs lexical_docs)).filter
          (fun x => decide (x.1 = s))) ∧
      retrieve rerankApi query dense_docs lexical_docs top_k =
        .ok ((ranked.take top_k).map (·.2)) := by
  refine ⟨?_, ?_, ?_, ?_, ?_⟩
  · exact (List.take_sublist _ _).nodup (dedupFirstAux_nodup _ [])
  · intro d hd
    exact List.mem_append.mp
      (mem_of_mem_dedupFirstAux ((List.take_sublist _ _).mem hd))
  · unfold fuseDocs
    rw [List.length_take]
    exact Nat.min_le_left _ _
  · intro h20 d hd
    unfold fuseDocs
    rw [List.take_of_length_le h20]
    exact mem_dedupFirstAux_of_mem (List.mem_append.mpr hd) (List.not_mem_nil d)
  · refine ⟨List.insertionSort pairGE (scores.zip (fuseDocs dense_docs lexical_docs)),
      List.perm_insertionSort _ _, List.sorted_insertionSort _ _,
      fun s => filter_insertionSort_fst _ s, ?_⟩
    unfold retrieve
    by_cases hemp : (fuseDocs dense_docs lexical_docs).isEmpty
    · have hnil : fuseDocs dense_docs lexical_docs = [] := List.isEmpty_iff.mp hemp
      rw [hnil]
      simp
    · rw [if_neg hemp, hok]

/-- C7 (witness).  Dense results `["A", "B"]` and lexical results
`["B", "C"]` fuse to the three candidates `["A", "B", "C"]` ("B" kept once);
with rerank scores `[1, 3, 2]` the theorem applies and `retrieve` returns
the top-2 by rerank score. -/
theorem retrieve_spec_witness :
    ((fun (_ : String) (_ : List String) =>
        (Except.ok [(1 : ℚ), 3, 2] : Except Err (List ℚ))) "q"
      (fuseDocs ["A", "B"] ["B", "C"]) = .ok [(1 : ℚ), 3, 2]) ∧
    ((fuseDocs ["A", "B"] ["B", "C"]).Nodup ∧
    (∀ d ∈ fuseDocs ["A", "B"] ["B", "C"],
      d ∈ (["A", "B"] : List String) ∨ d ∈ (["B", "C"] : List String)) ∧
    (fuseDocs ["A", "B"] ["B", "C"]).length ≤ 20 ∧
    ((dedupFirst ((["A", "B"] : List String) ++ ["B", "C"])).length ≤ 20 →
      ∀ d, d ∈ (["A", "B"] : List String) ∨ d ∈ (["B", "C"] : List String) →
        d ∈ fuseDocs ["A", "B"] ["B", "C"]) ∧
    ∃ ranked : List (ℚ × String),
      ranked.Perm (([(1 : ℚ), 3, 2]).zip (fuseDocs ["A", "B"] ["B", "C"])) ∧
      ranked.Pairwise pairGE ∧
      (∀ s : ℚ, ranked.filter (fun x => decide (x.1 = s)) =
        (([(1 : ℚ), 3, 2]).zip (fuseDocs ["A", "B"] ["B", "C"])).filter
          (fun x => decide (x.1 = s))) ∧
      retrieve (fun _ _ => .ok [(1 : ℚ), 3, 2]) "q" ["A", "B"] ["B", "C"] 2 =
        .ok ((ranked.take 2).map (·.2))) :=
  ⟨rfl, retrieve_spec (fun _ _ => .ok [(1 : ℚ), 3, 2]) "q" ["A", "B"] ["B", "C"] 2
    [(1 : ℚ), 3, 2] rfl⟩

/-! ## Helper lemmas: answer cache (C5, C9) -/

theorem cacheGet_cacheSet_self (st : CacheState) (k v : String) :
    cacheGet (cacheSet st k v) k = some v := by
  simp [cacheGet, cacheSet, List.lookup]

/-- C5 (amended). **Cache round-trip with the non-empty-answer proviso**:
with caching enabled and the cache available, calling `cached_rag` twice
with the same query within the TTL — starting from a state with no live
entry for the query — issues exactly one generation call in total, and the
second call returns text identical to the first call's answer, PROVIDED the
generated answer is a non-empty string.  (Python's `if cached:` is a
truthiness test, so a cached empty answer is treated as a miss and
regenerated — see the counterexample.) -/
theorem cached_rag_round_trip (gen : String → List String → String)
    (retr : String → List String) (query : String) (st : CacheState)
    (hcold : cacheGet st (cacheKey query) = none)
    (hne : gen query (retr query) ≠ "") :
    (cached_rag gen retr true true query st).2.2 +
      (cached_rag gen retr true true query
        ((cached_rag gen retr true true query st).2.1)).2.2 = 1 ∧
    (cached_rag gen retr true true query
      ((cached_rag gen retr true true query st).2.1)).1 =
      (cached_rag gen retr true true query st).1 := by
  have hget := cacheGet_cacheSet_self st (cacheKey query) (gen query (retr query))
  constructor
  · simp [cached_rag, cached_rag_miss, hcold, hget, hne]
  · simp [cached_rag, cached_rag_miss, hcold, hget, hne]

/-- C5 (witness).  A generator returning the non-empty answer `"ANSWER"`
from a cold cache: the two calls issue one generation call in total and
agree on the text. -/
theorem cached_rag_round_trip_witness :
    (cacheGet [] (cacheKey "hi") = none ∧
      (fun (_ : String) (_ : List String) => "ANSWER") "hi"
        ((fun (_ : String) => ([] : List String)) "hi") ≠ "") ∧
    ((cached_rag (fun _ _ => "ANSWER") (fun _ => []) true true "hi" []).2.2 +
      (cached_rag (fun _ _ => "ANSWER") (fun _ => []) true true "hi"
        ((cached_rag (fun _ _ => "ANSWER") (fun _ => []) true true "hi" []).2.1)).2.2 = 1 ∧
    (cached_rag (fun _ _ => "ANSWER") (fun _ => []) true true "hi"
      ((cached_rag (fun _ _ => "ANSWER") (fun _ => []) true true "hi" []).2.1)).1 =
      (cached_rag (fun _ _ => "ANSWER") (fun _ => []) true true "hi" []).1) :=
  ⟨⟨rfl, by decide⟩,
    cached_rag_round_trip (fun _ _ => "ANSWER") (fun _ => []) "hi" [] rfl (by decide)⟩

/-- C5 (counterexample).  When the generated answer is the EMPTY string, the
stored entry is falsy for Python's `if cached:`, so the second identical
call misses again and regenerates: two calls issue TWO generation calls,
not exactly one as the claim states. -/
theorem cached_rag_round_trip_cex :
    (cached_rag (fun _ _ => "") (fun _ => []) true true "q" []).2.2 +
      (cached_rag (fun _ _ => "") (fun _ => []) true true "q"
        ((cached_rag (fun _ _ => "") (fun _ => []) true true "q" []).2.1)).2.2 = 2 := by
  have hget := cacheGet_cacheSet_self [] (cacheKey "q") ""
  have hcold : cacheGet [] (cacheKey "q") = none := rfl
  simp [cached_rag, cached_rag_miss, hcold, hget]

/-- C9 (amended). **The cache key is a hash of the RAW query; key equality
is what governs entry sharing**: `cached_rag` reads and writes the entry at
`cacheKey query = "rag:" ++ sha256(raw query)[:16]`, with no normalization
applied, so two calls share a cache entry exactly when their raw queries
produce equal keys; under equal keys (in particular, equal raw queries) the
second call issues no generation call and returns the first call's answer. -/
theorem cacheKey_governs_sharing (gen : String → List String → String)
    (retr : String → List String) (q1 q2 : String) (st : CacheState)
    (hkey : cacheKey q1 = cacheKey q2)
    (hcold : cacheGet st (cacheKey q1) = none)
    (hne : gen q1 (retr q1) ≠ "") :
    (cached_rag gen retr true true q2 ((cached_rag gen retr true true q1 st).2.1)).2.2 = 0 ∧
    (cached_rag gen retr true true q2 ((cached_rag gen retr true true q1 st).2.1)).1 =
      (cached_rag gen retr true true q1 st).1 := by
  have hget : cacheGet (cacheSet st (cacheKey q1) (gen q1 (retr q1))) (cacheKey q2)
      = some (gen q1 (retr q1)) := by
    rw [← hkey]
    exact cacheGet_cacheSet_self st (cacheKey q1) (gen q1 (retr q1))
  constructor
  · simp [cached_rag, cached_rag_miss, hcold, hget, hne]
  · simp [cached_rag, cached_rag_miss, hcold, hget, hne]

/-- C9 (witness).  Two calls with the identical raw query `"hi"`: the keys
are trivially equal, the second call hits the first call's entry, issues no
generation call, and returns the same text. -/
theorem cacheKey_governs_sharing_witness :
    (cacheKey "hi" = cacheKey "hi" ∧ cacheGet [] (cacheKey "hi") = none ∧
      (fun (_ : String) (_ : List String) => "ANSWER") "hi"
        ((fun (_ : String) => ([] : List String)) "hi") ≠ "") ∧
    ((cached_rag (fun _ _ => "ANSWER") (fun _ => []) true true "hi"
      ((cached_rag (fun _ _ => "ANSWER") (fun _ => []) true true "hi" []).2.1)).2.2 = 0 ∧
    (cached_rag (fun _ _ => "ANSWER") (fun _ => []) true true "hi"
      ((cached_rag (fun _ _ => "ANSWER") (fun _ => []) true true "hi" []).2.1)).1 =
      (cached_rag (fun _ _ => "ANSWER") (fun _ => []) true true "hi" []).1) :=
  ⟨⟨rfl, rfl, by decide⟩,
    cacheKey_governs_sharing (fun _ _ => "ANSWER") (fun _ => []) "hi" "hi" []
      rfl rfl (by decide)⟩

set_option maxRecDepth 40000 in
/-- C9 (counterexample).  The code hashes the query WITHOUT normalization:
`"What is RAG?"` and `"what is rag?"` normalize to the same text under
lowercasing, and `"What is RAG?"` and `"What is RAG? "` under whitespace
stripping, yet each pair gets DIFFERENT cache keys — hence different cache
entries — refuting the claim that queries normalizing to the same text map
to the same entry.  (Both inequalities are decided by evaluating the
embedded SHA-256.) -/
theorem cacheKey_no_normalization_cex :
    cacheKey "What is RAG?" ≠ cacheKey "what is rag?" ∧
    cacheKey "What is RAG?" ≠ cacheKey "What is RAG? " := by
  constructor <;> decide

/-! ## Generator (C8) -/

/-- C8 (claim). **Empty retrieval yields the canned no-context answer
without a generation call**: for every generation oracle and query, when the
retrieved document list is empty, `rag_generate` returns
`"No relevant context found to answer this question."` as a successful
result (not an exception) with zero generation-service calls; in
particular the result does not depend on the generation oracle at all. -/
theorem rag_generate_empty_docs (api : String → Except Err String) (query : String) :
    rag_generate api true query [] = .ok (noContextAnswer, 0) ∧
    (∀ api' : String → Except Err String,
      rag_generate api true query [] = rag_generate api' true query []) :=
  ⟨rfl, fun _ => rfl⟩

/-! ## Helper lemmas: batch_rag admission control (C10) -/

theorem runningCount_batchInit (queries : List String) :
    runningCount (batchInit queries) = 0 := by
  unfold runningCount batchInit
  rw [List.countP_eq_zero]
  intro a ha
  obtain ⟨q, _, rfl⟩ := List.mem_map.mp ha
  simp [isRunning]

theorem schedReach_invariant (maxC : Nat) (answerOf : Nat → String)
    (queries : List String) (st : List TStatus)
    (h : SchedReach maxC answerOf (batchInit queries) st) :
    runningCount st ≤ maxC ∧ st.length = queries.length := by
  induction h with
  | refl =>
    refine ⟨?_, ?_⟩
    · rw [runningCount_batchInit]; exact Nat.zero_le _
    · simp [batchInit]
  | tail hr hstep ih =>
    rename_i st st' act
    obtain ⟨ihc, ihl⟩ := ih
    cases act with
    | acquire i =>
      simp only [schedStep] at hstep
      cases hgi : st.get? i with
      | none => rw [hgi] at hstep; cases hstep
      | some t =>
        rw [hgi] at hstep
        cases t with
        | waiting =>
          by_cases hlt : runningCount st < maxC
          · rw [if_pos hlt] at hstep
            cases hstep
            have hilen : i < st.length := (List.get?_eq_some.mp hgi).1
            have hgel : st[i] = TStatus.waiting := by
              have := (List.get?_eq_some.mp hgi).2
              simpa [List.get_eq_getElem] using this
            have hcount : List.countP isRunning (st.set i TStatus.running) =
                List.countP isRunning st + 1 := by
              rw [List.countP_set isRunning st i TStatus.running hilen, hgel]
              simp [isRunning]
            constructor
            · unfold runningCount at hlt ⊢
              rw [hcount]
              omega
            · rw [List.length_set]; exact ihl
          · rw [if_neg hlt] at hstep; cases hstep
        | running => cases hstep
        | done a => cases hstep
    | complete i =>
      simp only [schedStep] at hstep
      cases hgi : st.get? i with
      | none => rw [hgi] at hstep; cases hstep
      | some t =>
        rw [hgi] at hstep
        cases t with
        | waiting => cases hstep
        | running =>
          cases hstep
          have hilen : i < st.length := (List.get?_eq_some.mp hgi).1
          have hgel : st[i] = TStatus.running := by
            have := (List.get?_eq_some.mp hgi).2
            simpa [List.get_eq_getElem] using this
          have hcount : List.countP isRunning (st.set i (TStatus.done (answerOf i))) =
              List.countP isRunning st - 1 := by
            rw [List.countP_set isRunning st i (TStatus.done (answerOf i)) hilen, hgel]
            simp [isRunning]
          constructor
          · unfold runningCount at ihc ⊢
            rw [hcount]
            omega
          · rw [List.length_set]; exact ihl
        | done a => cases hstep

/-- The state of `batch_rag` after queries `0, ..., k-1` finished
sequentially and the rest still wait. -/
def batchPartial (answerOf : Nat → String) (n k : Nat) : List TStatus :=
  (List.range n).map (fun i => if i < k then TStatus.done (answerOf i) else .waiting)

theorem runningCount_batchPartial (answerOf : Nat → String) (n k : Nat) :
    runningCount (batchPartial answerOf n k) = 0 := by
  unfold runningCount batchPartial
  rw [List.countP_eq_zero]
  intro a ha
  obtain ⟨i, _, rfl⟩ := List.mem_map.mp ha
  by_cases hik : i < k <;> simp [hik, isRunning]

theorem batchPartial_zero (queries : List String) (answerOf : Nat → String) :
    batchInit queries = batchPartial answerOf queries.length 0 := by
  unfold batchInit batchPartial
  apply List.ext_getElem
  · simp
  intro j h1 h2
  simp only [List.getElem_map, List.getElem_range]
  simp

theorem batchPartial_last (answerOf : Nat → String) (n : Nat) :
    batchPartial answerOf n n = batchDone answerOf n := by
  unfold batchPartial batchDone
  apply List.map_congr_left
  intro i hi
  rw [if_pos (List.mem_range.mp hi)]

theorem batchPartial_step (answerOf : Nat → String) (n k : Nat) (_hk : k < n) :
    (batchPartial answerOf n k).set k (TStatus.done (answerOf k)) =
      batchPartial answerOf n (k + 1) := by
  unfold batchPartial
  apply List.ext_getElem
  · simp
  intro j h1 h2
  rw [List.getElem_set]
  simp only [List.getElem_map, List.getElem_range]
  by_cases hjk : k = j
  · subst hjk
    simp [Nat.lt_succ_self]
  · rw [if_neg hjk]
    by_cases hjlt : j < k
    · rw [if_pos hjlt, if_pos (by omega)]
    · rw [if_neg hjlt, if_neg (by omega)]

theorem schedReach_done (queries : List String) (answerOf : Nat → String) (maxC : Nat)
    (hmax : 1 ≤ maxC) :
    SchedReach maxC answerOf (batchInit queries)
      (batchDone answerOf queries.length) := by
  have key : ∀ k, k ≤ queries.length →
      SchedReach maxC answerOf (batchInit queries)
        (batchPartial answerOf queries.length k) := by
    intro k
    induction k with
    | zero =>
      intro _
      rw [← batchPartial_zero queries answerOf]
      exact SchedReach.refl
    | succ k ih =>
      intro hk1
      have hk : k < queries.length := hk1
      have hreach := ih (Nat.le_of_lt hk)
      have hget : (batchPartial answerOf queries.length k).get? k =
          some TStatus.waiting := by
        unfold batchPartial
        rw [List.get?_eq_getElem?, List.getElem?_map, List.getElem?_range]
        · simp
        · exact hk
      have hstep1 : schedStep maxC answerOf (batchPartial answerOf queries.length k)
          (.acquire k) = some ((batchPartial answerOf queries.length k).set k .running) := by
        simp only [schedStep, hget]
        rw [if_pos]
        rw [runningCount_batchPartial]
        omega
      have hget2 : ((batchPartial answerOf queries.length k).set k .running).get? k =
          some TStatus.running := by
        rw [List.get?_eq_getElem?, List.getElem?_set]
        have hklen : k < (batchPartial answerOf queries.length k).length := by
          unfold batchPartial
          simp [hk]
        simp [hklen]
      have hstep2 : schedStep maxC answerOf
          ((batchPartial answerOf queries.length k).set k .running)
          (.complete k) = some (((batchPartial answerOf queries.length k).set k
            .running).set k (.done (answerOf k))) := by
        simp only [schedStep, hget2]
      have hset : (((batchPartial answerOf queries.length k).set k .running).set k
          (.done (answerOf k))) = batchPartial answerOf queries.length (k + 1) := by
        rw [List.set_set]
        exact batchPartial_step answerOf queries.length k hk
      have r1 := SchedReach.tail hreach hstep1
      have r2 := SchedReach.tail r1 hstep2
      rwa [hset] at r2
  have := key queries.length (le_refl _)
  rwa [batchPartial_last] at this

/-- C10 (amended). **Bounded admission, no drops, input-order results — for
`max_concurrent ≥ 1`**: under every interleaving, every reachable state of
`batch_rag`'s task set has at most `max_concurrent` tasks inside the
semaphore (at most that many generation calls in flight) and exactly one
task per input query (no request is dropped); and the task set can run to
the completed state in which task `i` carries the answer for `queries[i]`,
i.e. `gather` returns the answers in input order regardless of completion
order.  For `max_concurrent = 0` the code deadlocks instead (see the
counterexample), so the claim's "for every limit" must exclude 0. -/
theorem batch_rag_spec (queries : List String) (answerOf : Nat → String) (maxC : Nat)
    (hmax : 1 ≤ maxC) :
    (∀ st, SchedReach maxC answerOf (batchInit queries) st →
      runningCount st ≤ maxC ∧ st.length = queries.length) ∧
    SchedReach maxC answerOf (batchInit queries)
      (batchDone answerOf queries.length) :=
  ⟨fun st h => schedReach_invariant maxC answerOf queries st h,
    schedReach_done queries answerOf maxC hmax⟩

/-- C10 (witness).  Two queries with `max_concurrent = 1`: the ceiling holds
in every reachable state and the completed in-order state is reachable. -/
theorem batch_rag_spec_witness :
    1 ≤ 1 ∧
    ((∀ st, SchedReach 1 (fun _ => "x") (batchInit ["a", "b"]) st →
      runningCount st ≤ 1 ∧ st.length = (["a", "b"] : List String).length) ∧
    SchedReach 1 (fun _ => "x") (batchInit ["a", "b"])
      (batchDone (fun _ => "x") (["a", "b"] : List String).length)) :=
  ⟨le_refl 1, batch_rag_spec ["a", "b"] (fun _ => "x") 1 (le_refl 1)⟩

/-- C10 (counterexample).  With `max_concurrent = 0` (`asyncio.Semaphore(0)`)
no task ever acquires a slot: the initial all-waiting state is the ONLY
reachable state, so `batch_rag` never produces any answer — refuting the
claim's "for every limit max_concurrent ... returns answers in the same
order as the input queries". -/
theorem batch_rag_zero_capacity_cex :
    (∀ st, SchedReach 0 (fun _ => "ans") (batchInit ["q"]) st → st = batchInit ["q"]) ∧
    batchInit ["q"] ≠ batchDone (fun _ => "ans") (["q"] : List String).length := by
  constructor
  · intro st h
    induction h with
    | refl => rfl
    | tail hr hstep ih =>
      rename_i st st' act
      rw [ih] at hstep
      have hinit : batchInit ["q"] = [TStatus.waiting] := rfl
      rw [hinit] at hstep
      cases act with
      | acquire i =>
        match i with
        | 0 => simp [schedStep, runningCount, List.countP, isRunning] at hstep
        | j + 1 => simp [schedStep] at hstep
      | complete i =>
        match i with
        | 0 => simp [schedStep] at hstep
        | j + 1 => simp [schedStep] at hstep
  · decide

end RagSpec
